import Mathlib

/-!
# HomeCare chatbot: keyword/reply store, lookup, teach flow and persistence

A shallow embedding of `src/main.cpp`.

* A `std::string` is a list of characters (`Str`); every byte string is such a
  list, so a statement proved for all `Str` holds for all byte strings.
* `size_t` positions are natural numbers; `string::npos` is `none`.
* A stream (`ifstream`, `cin`) is the list of characters not yet read; the
  characters are passed on as they are (no newline translation).
* The file named `filename` is `Option Str`: `none` when it does not exist
  (`ifstream` fails to open it), `some content` otherwise.
* Opening the file for appending may fail; each call that opens it takes the
  outcome as the boolean `canOpen`. This is the only failure the program
  tests for; once the stream is open, writes succeed.
* `cout` and `cerr` are the character sequences written so far.
-/

namespace HomeCare

/-- A `std::string`. -/
abbrev Str := List Char

/-! ## Library functions used by the program -/

/-- `std::string::find_first_not_of(chars)`: position of the first character
that is not in `chars`; `none` is `string::npos`. -/
def find_first_not_of : Str → Str → Option Nat
  | [], _ => none
  | c :: s, chars =>
    if c ∈ chars then (find_first_not_of s chars).map (· + 1) else some 0

/-- `std::string::find_last_not_of(chars)`: position of the last character
that is not in `chars`; `none` is `string::npos`. -/
def find_last_not_of : Str → Str → Option Nat
  | [], _ => none
  | c :: s, chars =>
    match find_last_not_of s chars with
    | some i => some (i + 1)
    | none => if c ∈ chars then none else some 0

/-- `std::string::substr(pos, n)` for `pos ≤ size()`. -/
def substr (str : Str) (pos n : Nat) : Str := (str.drop pos).take n

/-- `std::string::substr(pos)` for `pos ≤ size()`. -/
def substrFrom (str : Str) (pos : Nat) : Str := str.drop pos

/-- `std::string::find(ch)`: position of the first occurrence of the
character; `none` is `string::npos`. -/
def findChar : Str → Char → Option Nat
  | [], _ => none
  | c :: s, ch => if c = ch then some 0 else (findChar s ch).map (· + 1)

/-- `std::string::find(str)`: position of the first occurrence of `k` as a
contiguous block of `s`; `none` is `string::npos`. -/
def find : Str → Str → Option Nat
  | [], k => if k = [] then some 0 else none
  | c :: s, k => if k.isPrefixOf (c :: s) then some 0 else (find s k).map (· + 1)

/-- `tolower` on an `unsigned char` in the "C" locale (the program never
calls `setlocale`): `A`..`Z` go to `a`..`z`, every other value is kept. -/
def tolower (c : Char) : Char :=
  if 65 ≤ c.toNat ∧ c.toNat ≤ 90 then Char.ofNat (c.toNat + 32) else c

/-- `std::getline(stream, line)` on the unread characters of a stream. It
fails (`none`) when nothing is left; otherwise the line is everything up to
the first newline, which is consumed and not stored, or up to the end. -/
def getline : Str → Option (Str × Str)
  | [] => none
  | c :: s => some (List.takeWhile (· ≠ '\n') (c :: s),
                    (List.dropWhile (· ≠ '\n') (c :: s)).drop 1)

/-! ## Utility functions (`main.cpp` lines 14-22) -/

/-- The character set `" \t\n\r"` of `trim`. -/
def trimChars : Str := [' ', '\t', '\n', '\r']

/-- `trim` (lines 15-22). When no character outside the set is found the
argument is returned as it is. The last branch cannot be taken (see
`find_last_not_of_isSome`); `string::npos - first + 1` wraps to a count that
reaches the end of the string. -/
def trim (str : Str) : Str :=
  match find_first_not_of str trimChars with
  | none => str
  | some first =>
    match find_last_not_of str trimChars with
    | some last => substr str first (last - first + 1)
    | none => substr str first (str.length - first)

/-! ## `Response` and `Chatbot` (lines 26-138) -/

/-- `Response<string, string>` (lines 26-40). -/
structure Response where
  keyword : Str
  reply : Str
deriving DecidableEq, Repr

/-- The state a `Chatbot` works on: its `responses` member, the file named
`filename`, and the three standard streams. -/
structure Chatbot where
  responses : List Response
  file : Option Str
  cin : Str
  cout : Str
  cerr : Str
deriving DecidableEq, Repr

/-- `Chatbot::toLowerCase` (lines 51-56). -/
def toLowerCase (str : Str) : Str := str.map tolower

/-- `Chatbot::saveResponseToFile` (lines 129-137). `canOpen` tells whether
`ofstream outfile(filename, ios::app)` opened; opening for append creates an
absent file. -/
def saveResponseToFile (canOpen : Bool) (keyword reply : Str) (b : Chatbot) : Chatbot :=
  if canOpen then
    { b with file := some (b.file.getD [] ++ keyword ++ ['\n'] ++ reply ++ ['\n']) }
  else
    { b with cerr := b.cerr ++ "Error: Unable to save response to file.".toList ++ ['\n'] }

/-- `Chatbot::learn` (lines 97-102). -/
def learn (canOpen : Bool) (keyword reply : Str) (b : Chatbot) : Chatbot :=
  let cleanedKeyword := toLowerCase keyword
  let b1 := { b with responses := b.responses ++ [⟨cleanedKeyword, reply⟩] }
  let b2 := saveResponseToFile canOpen keyword reply b1
  { b2 with cout := b2.cout ++ "I've learned a new response! Keyword: '".toList
                      ++ cleanedKeyword ++ "'".toList ++ ['\n'] }

/-- The `for` loop of `Chatbot::respond` (lines 78-84): the reply printed by
the first iteration that reaches `break`, `none` when `found` stays false. -/
def respondLoop (lowerInput : Str) : List Response → Option Str
  | [] => none
  | r :: rest =>
    if r.keyword ≠ [] ∧ (find lowerInput r.keyword).isSome then some r.reply
    else respondLoop lowerInput rest

/-- `getline(cin, line)` into a default-constructed `line`: on failure the
line stays empty and nothing is consumed. -/
def getlineCin (cin : Str) : Str × Str :=
  match getline cin with
  | some (line, rest) => (line, rest)
  | none => ([], cin)

/-- The `if (!found)` block of `Chatbot::respond` (lines 86-94). -/
def teach (canOpen : Bool) (b : Chatbot) : Chatbot :=
  let b1 := { b with cout := b.cout
      ++ "I don't understand. Can you teach me a response for this?".toList ++ ['\n']
      ++ "Enter a keyword or phrase: ".toList }
  let (keyword, cin1) := getlineCin b1.cin
  let b2 := { b1 with
    cin := cin1
    cout := b1.cout ++ "Enter the response for this keyword or phrase: ".toList }
  let (reply, cin2) := getlineCin b2.cin
  learn canOpen (trim keyword) reply { b2 with cin := cin2 }

/-- `Chatbot::respond` (lines 74-95). -/
def respond (canOpen : Bool) (userInput : Str) (b : Chatbot) : Chatbot :=
  let lowerInput := toLowerCase userInput
  match respondLoop lowerInput b.responses with
  | some reply => { b with cout := b.cout ++ reply ++ ['\n'] }
  | none => teach canOpen b

/-- Lines 113-120 of `Chatbot::loadResponses`: the value of `cleanedKeyword`
when the emptiness test of line 122 is reached. -/
def cleanKeyword (keywordLine : Str) : Str :=
  match findChar keywordLine ']' with
  | some endOfSource => trim (substrFrom keywordLine (endOfSource + 1))
  | none => trim keywordLine

/-- The body of the `while` loop of `Chatbot::loadResponses` (lines 113-124). -/
def loadBody (keywordLine reply : Str) (responses : List Response) : List Response :=
  let cleanedKeyword := cleanKeyword keywordLine
  if cleanedKeyword ≠ [] then responses ++ [⟨toLowerCase cleanedKeyword, reply⟩]
  else responses

/-- The `while` loop of `Chatbot::loadResponses` (line 112) on the unread
characters of `infile`. Every iteration consumes at least one character, so
`fuel` larger than the stream's length is never used up
(`loadLoop_fuel`). -/
def loadLoop : Nat → Str → List Response → List Response
  | 0, _, responses => responses
  | fuel + 1, infile, responses =>
    match getline infile with
    | none => responses
    | some (keywordLine, infile1) =>
      match getline infile1 with
      | none => responses
      | some (reply, infile2) => loadLoop fuel infile2 (loadBody keywordLine reply responses)

/-- `Chatbot::loadResponses` (lines 104-127). -/
def loadResponses (b : Chatbot) : Chatbot :=
  match b.file with
  | none =>
    { b with cout := b.cout ++ "No previous knowledge found. Starting fresh!".toList ++ ['\n'] }
  | some content =>
    { b with responses := loadLoop (content.length + 1) content b.responses }

/-- The constructor `Chatbot::Chatbot` (lines 59-62): `responses` starts
empty and `loadResponses` runs once. -/
def Chatbot.new (file : Option Str) (cin cout cerr : Str) : Chatbot :=
  loadResponses { responses := [], file := file, cin := cin, cout := cout, cerr := cerr }

/-! ## `EmergencyService` and `HomeCareChatbot` (lines 155-263) -/

/-- `HomeCareChatbot::PRIMARY_MENU` (lines 247-254). -/
def PRIMARY_MENU : List Str :=
  ["services".toList, "appointment".toList, "pricing".toList, "location".toList,
   "hours".toList, "feedback".toList]

/-- `HomeCareChatbot::SECONDARY_MENU` (lines 256-263). -/
def SECONDARY_MENU : List Str :=
  ["deep cleaning".toList, "kitchen cleaning".toList, "bathroom cleaning".toList,
   "carpet cleaning".toList, "dusting".toList, "floor cleaning".toList]

/-- `EmergencyService::provideEmergencyInfo` through
`HomeCareChatbot::provideEmergencyService` (lines 157-160, 176-178). -/
def provideEmergencyService (b : Chatbot) : Chatbot :=
  { b with cout := b.cout ++ "In case of urgency, please contact ".toList
      ++ "+91 123 4567890 for immediate assistance.".toList ++ ['\n'] }

/-- The `for` loop of `displayMenu` (lines 186-188), from index `i` on. -/
def displayMenuItems : Nat → List Str → Str
  | _, [] => []
  | i, item :: rest =>
    (Nat.repr (i + 1)).toList ++ ". ".toList ++ item ++ ['\n'] ++ displayMenuItems (i + 1) rest

/-- `HomeCareChatbot::displayMenu` (lines 180-196). The two titles start with
a four-byte UTF-8 sequence, written byte by byte. -/
def displayMenu (isPrimary : Bool) (b : Chatbot) : Chatbot :=
  let menu := if isPrimary then PRIMARY_MENU else SECONDARY_MENU
  let title := if isPrimary then "\xf0\x9f\x8f\xa1 Primary Options".toList
    else "\xf0\x9f\xa7\xb9 Service Options".toList
  let b1 := { b with cout := b.cout ++ "\n--- ".toList ++ title ++ " ---".toList ++ ['\n'] }
  let b2 := { b1 with cout := b1.cout ++ displayMenuItems 0 menu }
  let b3 := if isPrimary then
      { b2 with cout := b2.cout ++ (Nat.repr (menu.length + 1)).toList
          ++ ". Emergency Contact".toList ++ ['\n'] }
    else b2
  { b3 with cout := b3.cout ++ "--------------------------".toList ++ ['\n']
      ++ ("Type the option number, or type your query directly "
          ++ "(e.g., timings, hi, bye).").toList ++ ['\n'] }

/-- Step 3 of `handleMenuSelection` (lines 234-242). -/
def processKeyword (canOpen : Bool) (keywordToSearch : Str) (b : Chatbot) : Bool × Chatbot :=
  if keywordToSearch = "services".toList then
    (true, displayMenu false
      { b with cout := b.cout ++ "Great! Which service are you interested in?".toList ++ ['\n'] })
  else
    (true, respond canOpen keywordToSearch b)

/-- `HomeCareChatbot::handleMenuSelection` (lines 207-243): the returned
boolean and the state afterwards. `vector::operator[]` is read with a default
for an index out of range; `handleMenuSelection_in_bounds` shows that no such
index is used. -/
def handleMenuSelection (canOpen : Bool) (menuChoice : Int) (b : Chatbot) : Bool × Chatbot :=
  let primary := PRIMARY_MENU
  let secondary := SECONDARY_MENU
  if menuChoice > 0 ∧ menuChoice ≤ (primary.length : Int) then
    processKeyword canOpen (primary.getD (menuChoice - 1).toNat []) b
  else if menuChoice = (primary.length : Int) + 1 then
    (true, provideEmergencyService b)
  else if menuChoice > 100 ∧ menuChoice ≤ 100 + (secondary.length : Int) then
    processKeyword canOpen (secondary.getD (menuChoice - 101).toNat []) b
  else
    (false, { b with cout := b.cout ++ "Invalid menu choice. Please try again.".toList ++ ['\n'] })

/-! ## Vocabulary of the specification -/

/-- Membership in the character set of `trim`, as a boolean test. -/
def isWs (c : Char) : Bool := decide (c ∈ trimChars)

/-- A string that neither starts nor ends with a character of the set of
`trim`. -/
def NoOuterWs (k : Str) : Prop :=
  (∀ c, k.head? = some c → c ∉ trimChars) ∧ (∀ c, k.getLast? = some c → c ∉ trimChars)

/-- A non-empty string made of characters of the set of `trim` only. -/
def WsOnly (s : Str) : Prop := s ≠ [] ∧ ∀ c ∈ s, c ∈ trimChars

/-- The string without its leading and its trailing run of characters of the
set of `trim`: the string trimmed of surrounding whitespace. -/
def strip (s : Str) : Str := List.rdropWhile isWs (List.dropWhile isWs s)

/-- What holds of every keyword of a reachable store: it is its own lowercase
form and, when it has a character outside the set of `trim`, it neither
starts nor ends with a character of the set. -/
def KeywordInv (k : Str) : Prop :=
  toLowerCase k = k ∧ ((∃ c ∈ k, c ∉ trimChars) → NoOuterWs k)

/-- An entry qualifies for a lowercased input when its keyword is non-empty
and occurs in the input as a contiguous block. -/
def Qualifies (lowerInput : Str) (r : Response) : Prop :=
  r.keyword ≠ [] ∧ r.keyword <:+: lowerInput

instance (lowerInput : Str) (r : Response) : Decidable (Qualifies lowerInput r) :=
  inferInstanceAs (Decidable (_ ∧ _))

/-- The line sequence of a file: the text is cut at every newline, and no
empty line is counted after a final newline. -/
def fileLines : Str → List Str
  | [] => []
  | c :: s =>
    if c = '\n' then [] :: fileLines s
    else
      match fileLines s with
      | [] => [[c]]
      | l :: ls => (c :: l) :: ls

/-- The file whose lines are `ls`, each one followed by a newline. -/
def unlines (ls : List Str) : Str := (ls.map (· ++ ['\n'])).flatten

/-- The entry a (keyword line, reply line) pair stands for, if any: the
pair is kept when its keyword candidate is non-empty, with the candidate
lowercased and the reply as read. -/
def entryOf (keywordLine reply : Str) : Option Response :=
  if cleanKeyword keywordLine ≠ [] then some ⟨toLowerCase (cleanKeyword keywordLine), reply⟩
  else none

/-- The store described by a line sequence `l1..ln`: one entry for each pair
`(l(2i-1), l(2i))` with `2i ≤ n` that stands for one, in file order. -/
def storeOfLines (ls : List Str) : List Response :=
  (List.range (ls.length / 2)).filterMap
    (fun i => entryOf (ls.getD (2 * i) []) (ls.getD (2 * i + 1) []))

/-- The `while` loop of `loadResponses` replayed on a line sequence: the
lines are taken two at a time and handed to the loop body; a last line
without a partner ends the loop. -/
def loadLines : List Str → List Response → List Response
  | k :: r :: rest, acc => loadLines rest (loadBody k r acc)
  | _, acc => acc

/-- The lines of a sequence of (keyword line, reply line) pairs. -/
def pairLines : List (Str × Str) → List Str
  | [] => []
  | p :: ps => p.1 :: p.2 :: pairLines ps

/-- One turn of conversation: the text handed to `respond`, what is waiting
on `cin` when it is called, and whether the file can be opened for append. -/
structure Turn where
  canOpen : Bool
  userInput : Str
  typed : Str

/-- The state after a sequence of turns of `respond`. -/
def runTurns (b : Chatbot) : List Turn → Chatbot
  | [] => b
  | t :: ts => runTurns (respond t.canOpen t.userInput { b with cin := t.typed }) ts

/-- A sequence of `learn` calls (keyword, reply) whose appends all succeed. -/
def learnAll (b : Chatbot) : List (Str × Str) → Chatbot
  | [] => b
  | c :: cs => learnAll (learn true c.1 c.2 b) cs

/-- The store a fresh `Chatbot` loads from the file of `b`. -/
def reload (b : Chatbot) : List Response := (Chatbot.new b.file [] [] []).responses

/-! ## Facts about the library functions -/

theorem find_first_not_of_eq_none (s chars : Str) :
    find_first_not_of s chars = none ↔ ∀ c ∈ s, c ∈ chars := by
  induction s with
  | nil => simp [find_first_not_of]
  | cons a s ih =>
    by_cases h : a ∈ chars
    · simp [find_first_not_of, h, ih]
    · simp [find_first_not_of, h]

theorem find_last_not_of_eq_none (s chars : Str) :
    find_last_not_of s chars = none ↔ ∀ c ∈ s, c ∈ chars := by
  induction s with
  | nil => simp [find_last_not_of]
  | cons a s ih =>
    cases hl : find_last_not_of s chars with
    | none =>
      have hs := ih.mp hl
      by_cases h : a ∈ chars
      · simpa [find_last_not_of, hl, h] using hs
      · simp [find_last_not_of, hl, h]
    | some i =>
      have hs : ¬ ∀ c ∈ s, c ∈ chars := fun hall => by
        rw [ih.mpr hall] at hl; cases hl
      simp only [find_last_not_of, hl, List.mem_cons, forall_eq_or_imp]
      simp [hs]

/-- The last branch of `trim` is dead: when a first character outside the
set exists, a last one exists too. -/
theorem find_last_not_of_isSome (s chars : Str)
    (h : (find_first_not_of s chars).isSome) : (find_last_not_of s chars).isSome := by
  cases hl : find_last_not_of s chars with
  | some i => rfl
  | none =>
    rw [(find_first_not_of_eq_none s chars).mpr ((find_last_not_of_eq_none s chars).mp hl)] at h
    cases h

theorem rdropWhile_cons (p : Char → Bool) (a : Char) (s : Str) :
    List.rdropWhile p (a :: s) =
      if List.rdropWhile p s = [] then (if p a then [] else [a])
      else a :: List.rdropWhile p s := by
  induction s using List.reverseRecOn with
  | nil => by_cases h : p a = true <;> simp [List.rdropWhile, List.dropWhile, h]
  | append_singleton t x ih =>
    rw [← List.cons_append, List.rdropWhile_concat, List.rdropWhile_concat]
    by_cases hx : p x = true
    · simp only [hx, if_true]; exact ih
    · simp [hx]

theorem take_find_last_not_of (chars : Str) (s : Str) (l : Nat)
    (h : find_last_not_of s chars = some l) :
    s.take (l + 1) = List.rdropWhile (fun c => decide (c ∈ chars)) s := by
  induction s generalizing l with
  | nil => simp [find_last_not_of] at h
  | cons a s ih =>
    rw [rdropWhile_cons]
    cases hl : find_last_not_of s chars with
    | some i =>
      have hne : List.rdropWhile (fun c => decide (c ∈ chars)) s ≠ [] := by
        intro hnil
        rw [List.rdropWhile_eq_nil_iff] at hnil
        have hall : ∀ c ∈ s, c ∈ chars := fun c hc => by simpa using hnil c hc
        rw [(find_last_not_of_eq_none s chars).mpr hall] at hl
        cases hl
      simp only [find_last_not_of, hl, Option.some.injEq] at h
      subst h
      rw [if_neg hne, List.take_succ_cons, ih i hl]
    | none =>
      have hall := (find_last_not_of_eq_none s chars).mp hl
      have hnil : List.rdropWhile (fun c => decide (c ∈ chars)) s = [] := by
        rw [List.rdropWhile_eq_nil_iff]
        intro c hc
        simpa using hall c hc
      by_cases ha : a ∈ chars
      · simp [find_last_not_of, hl, ha] at h
      · simp only [find_last_not_of, hl, ha, if_false, Option.some.injEq] at h
        subst h
        simp [hnil, ha]

/-- When every character is in the set, `trim` returns its argument. -/
theorem trim_of_all_ws (s : Str) (h : ∀ c ∈ s, c ∈ trimChars) : trim s = s := by
  simp [trim, (find_first_not_of_eq_none s trimChars).mpr h]

/-- When some character is outside the set, `trim` removes exactly the
leading and the trailing run of characters of the set. -/
theorem trim_eq_strip (s : Str) (h : ∃ c ∈ s, c ∉ trimChars) :
    trim s = List.rdropWhile isWs (List.dropWhile isWs s) := by
  induction s with
  | nil => simp at h
  | cons a s ih =>
    by_cases ha : a ∈ trimChars
    · have hs : ∃ c ∈ s, c ∉ trimChars := by
        obtain ⟨c, hc, hcn⟩ := h
        rcases List.mem_cons.mp hc with rfl | hc
        · exact absurd ha hcn
        · exact ⟨c, hc, hcn⟩
      have hf : find_first_not_of s trimChars ≠ none := fun hn =>
        let ⟨c, hc, hcn⟩ := hs
        hcn ((find_first_not_of_eq_none s trimChars).mp hn c hc)
      obtain ⟨f, hf⟩ := Option.ne_none_iff_exists'.mp hf
      have hl := find_last_not_of_isSome s trimChars (by simp [hf])
      obtain ⟨l, hl⟩ := Option.isSome_iff_exists.mp hl
      have ih := ih hs
      simp only [trim, hf, hl] at ih
      have hws : isWs a = true := by simp [isWs, ha]
      simp only [trim, find_first_not_of, ha, if_true, hf, Option.map_some', find_last_not_of, hl,
        List.dropWhile_cons, hws]
      rw [← ih]
      simp [substr]
    · have hl : (find_last_not_of (a :: s) trimChars).isSome :=
        find_last_not_of_isSome _ _ (by simp [find_first_not_of, ha])
      obtain ⟨l, hl⟩ := Option.isSome_iff_exists.mp hl
      have hws : isWs a = false := by simp [isWs, ha]
      have := take_find_last_not_of trimChars (a :: s) l hl
      simp only [trim, find_first_not_of, ha, if_false, hl, List.dropWhile_cons, hws]
      simpa [substr, isWs] using this

theorem strip_ne_nil (s : Str) (h : ∃ c ∈ s, c ∉ trimChars) :
    List.rdropWhile isWs (List.dropWhile isWs s) ≠ [] := by
  intro hnil
  rw [List.rdropWhile_eq_nil_iff] at hnil
  have hd : List.dropWhile isWs s ≠ [] := by
    intro hd
    rw [List.dropWhile_eq_nil_iff] at hd
    obtain ⟨c, hc, hcn⟩ := h
    exact hcn (by simpa [isWs] using hd c hc)
  have h0 := List.head?_dropWhile_not isWs s
  cases hds : List.dropWhile isWs s with
  | nil => exact hd hds
  | cons x t =>
    rw [hds] at h0 hnil
    have h1 : isWs x = false := by simpa using h0
    have h2 : isWs x = true := hnil x (List.mem_cons_self _ _)
    rw [h1] at h2
    cases h2

theorem trim_eq_nil_iff (s : Str) : trim s = [] ↔ s = [] := by
  constructor
  · intro h
    by_cases hall : ∀ c ∈ s, c ∈ trimChars
    · rwa [trim_of_all_ws s hall] at h
    · have hex : ∃ c ∈ s, c ∉ trimChars := by
        by_contra hne
        exact hall fun c hc => by_contra fun hcn => hne ⟨c, hc, hcn⟩
      rw [trim_eq_strip s hex] at h
      exact absurd h (strip_ne_nil s hex)
  · rintro rfl
    rfl

theorem all_ws_or_exists (s : Str) : (∀ c ∈ s, c ∈ trimChars) ∨ ∃ c ∈ s, c ∉ trimChars := by
  by_cases hall : ∀ c ∈ s, c ∈ trimChars
  · exact Or.inl hall
  · right
    by_contra hne
    exact hall fun c hc => by_contra fun hcn => hne ⟨c, hc, hcn⟩

theorem trim_sub (s : Str) : trim s <:+: s := by
  rcases all_ws_or_exists s with hall | hex
  · rw [trim_of_all_ws s hall]
  · rw [trim_eq_strip s hex]
    exact (List.rdropWhile_prefix isWs _).isInfix.trans (List.dropWhile_suffix isWs).isInfix

theorem strip_noOuterWs (s : Str) :
    NoOuterWs (List.rdropWhile isWs (List.dropWhile isWs s)) := by
  constructor
  · intro c hc
    obtain ⟨t, ht⟩ := List.rdropWhile_prefix isWs (List.dropWhile isWs s)
    have h0 := List.head?_dropWhile_not isWs s
    cases hr : List.rdropWhile isWs (List.dropWhile isWs s) with
    | nil => rw [hr] at hc; cases hc
    | cons x r =>
      rw [hr] at hc ht
      simp only [List.head?_cons, Option.some.injEq] at hc
      subst hc
      rw [← ht] at h0
      simpa [isWs] using h0
  · intro c hc
    have hne : List.rdropWhile isWs (List.dropWhile isWs s) ≠ [] := by
      intro hnil; rw [hnil] at hc; cases hc
    have h1 := List.rdropWhile_last_not isWs (List.dropWhile isWs s) hne
    rw [List.getLast?_eq_getLast _ hne] at hc
    simp only [Option.some.injEq] at hc
    rw [hc] at h1
    simpa [isWs] using h1

theorem trim_noOuterWs (s : Str) (h : ∃ c ∈ s, c ∉ trimChars) : NoOuterWs (trim s) := by
  rw [trim_eq_strip s h]
  exact strip_noOuterWs s

theorem trim_idem (s : Str) : trim (trim s) = trim s := by
  rcases all_ws_or_exists s with hall | hex
  · rw [trim_of_all_ws s hall, trim_of_all_ws s hall]
  · have hne : trim s ≠ [] := fun hnil => by
      obtain ⟨c, hc, _⟩ := hex
      rw [(trim_eq_nil_iff s).mp hnil] at hc
      cases hc
    have hno := trim_noOuterWs s hex
    cases ht : trim s with
    | nil => exact absurd ht hne
    | cons x t =>
      rw [ht] at hno
      have hx : x ∉ trimChars := hno.1 x rfl
      have hex2 : ∃ c ∈ x :: t, c ∉ trimChars := ⟨x, List.mem_cons_self _ _, hx⟩
      rw [trim_eq_strip _ hex2]
      have hxw : isWs x = false := by simp [isWs, hx]
      rw [List.dropWhile_cons, hxw]
      simp only [Bool.false_eq_true, if_false]
      have hlast := hno.2
      have hcons : x :: t ≠ [] := List.cons_ne_nil _ _
      have hl : (x :: t).getLast hcons ∉ trimChars :=
        hlast _ (List.getLast?_eq_getLast _ hcons)
      have hsplit := List.dropLast_append_getLast hcons
      rw [← hsplit, List.rdropWhile_concat]
      simp [isWs, hl]

theorem tolower_idem (c : Char) : tolower (tolower c) = tolower c := by
  unfold tolower
  by_cases h : 65 ≤ c.toNat ∧ c.toNat ≤ 90
  · simp only [h, and_self, if_true]
    obtain ⟨h1, h2⟩ := h
    generalize c.toNat = n at h1 h2
    interval_cases n <;> decide
  · simp only [h, if_false]

theorem tolower_mem_trimChars (c : Char) : tolower c ∈ trimChars ↔ c ∈ trimChars := by
  unfold tolower
  by_cases h : 65 ≤ c.toNat ∧ c.toNat ≤ 90
  · simp only [h, and_self, if_true]
    have hc : c ∉ trimChars := by
      intro hc
      simp only [trimChars, List.mem_cons, List.mem_singleton, List.not_mem_nil, or_false] at hc
      rcases hc with rfl | rfl | rfl | rfl <;> revert h <;> decide
    obtain ⟨h1, h2⟩ := h
    generalize c.toNat = n at h1 h2
    have : Char.ofNat (n + 32) ∉ trimChars := by interval_cases n <;> decide
    exact ⟨fun h => absurd h this, fun h => absurd h hc⟩
  · simp only [h, if_false]

theorem toLowerCase_idem (s : Str) : toLowerCase (toLowerCase s) = toLowerCase s := by
  simp [toLowerCase, tolower_idem]

theorem toLowerCase_eq_nil_iff (s : Str) : toLowerCase s = [] ↔ s = [] := by
  simp [toLowerCase]

theorem toLowerCase_mono {k s : Str} (h : k <:+: s) : toLowerCase k <:+: toLowerCase s :=
  List.IsInfix.map tolower h

theorem toLowerCase_noOuterWs (k : Str) (h : NoOuterWs k) : NoOuterWs (toLowerCase k) := by
  constructor
  · intro c hc
    cases k with
    | nil => cases hc
    | cons x t =>
      simp only [toLowerCase, List.map_cons, List.head?_cons, Option.some.injEq] at hc
      subst hc
      exact fun hx => h.1 x rfl ((tolower_mem_trimChars x).mp hx)
  · intro c hc
    simp only [toLowerCase, List.getLast?_map] at hc
    cases hl : k.getLast? with
    | none => rw [hl] at hc; cases hc
    | some x =>
      rw [hl] at hc
      simp only [Option.map_some', Option.some.injEq] at hc
      subst hc
      exact fun hx => h.2 x hl ((tolower_mem_trimChars x).mp hx)

theorem toLowerCase_exists_not_ws (k : Str) (h : ∃ c ∈ toLowerCase k, c ∉ trimChars) :
    ∃ c ∈ k, c ∉ trimChars := by
  obtain ⟨c, hc, hcn⟩ := h
  simp only [toLowerCase, List.mem_map] at hc
  obtain ⟨a, ha, rfl⟩ := hc
  exact ⟨a, ha, fun hx => hcn ((tolower_mem_trimChars a).mpr hx)⟩

/-- `find` succeeds exactly when `k` occurs in `s` as a contiguous block. -/
theorem find_isSome_iff (s k : Str) : (find s k).isSome ↔ k <:+: s := by
  induction s with
  | nil =>
    by_cases hk : k = []
    · simp [find, hk]
    · simp [find, hk]
  | cons c s ih =>
    rw [List.infix_cons_iff]
    by_cases hp : k.isPrefixOf (c :: s) = true
    · simp only [find, hp, if_true, Option.isSome_some, true_iff]
      exact Or.inl (List.isPrefixOf_iff_prefix.mp hp)
    · have hnp : ¬ k <+: c :: s := fun hpre => hp (List.isPrefixOf_iff_prefix.mpr hpre)
      simp only [find, hp, Bool.false_eq_true, if_false, Option.isSome_map', ih, hnp, false_or]

/-! ## Lookup -/

theorem respondLoop_eq_none_iff (x : Str) (rs : List Response) :
    respondLoop x rs = none ↔ ∀ r ∈ rs, ¬ Qualifies x r := by
  induction rs with
  | nil => simp [respondLoop]
  | cons r rest ih =>
    by_cases h : r.keyword ≠ [] ∧ (find x r.keyword).isSome
    · have hq : Qualifies x r := ⟨h.1, (find_isSome_iff _ _).mp h.2⟩
      simp [respondLoop, h, hq]
    · have hq : ¬ Qualifies x r := fun hq => h ⟨hq.1, (find_isSome_iff _ _).mpr hq.2⟩
      simp [respondLoop, h, hq, ih]

theorem respondLoop_first (x : Str) (rs : List Response) (h : ∃ r ∈ rs, Qualifies x r) :
    ∃ (i : Nat) (r : Response), rs[i]? = some r ∧ Qualifies x r ∧
      (∀ (j : Nat) (r' : Response), j < i → rs[j]? = some r' → ¬ Qualifies x r') ∧
      respondLoop x rs = some r.reply := by
  induction rs with
  | nil => simp at h
  | cons r rest ih =>
    by_cases hq : Qualifies x r
    · refine ⟨0, r, by simp, hq, fun j r' hj => absurd hj (Nat.not_lt_zero j), ?_⟩
      have : r.keyword ≠ [] ∧ (find x r.keyword).isSome := ⟨hq.1, (find_isSome_iff _ _).mpr hq.2⟩
      simp [respondLoop, this]
    · have hrest : ∃ r ∈ rest, Qualifies x r := by
        obtain ⟨r0, hr0, hq0⟩ := h
        rcases List.mem_cons.mp hr0 with rfl | hr0
        · exact absurd hq0 hq
        · exact ⟨r0, hr0, hq0⟩
      obtain ⟨i, r1, hi, hq1, hmin, hres⟩ := ih hrest
      refine ⟨i + 1, r1, by simpa using hi, hq1, ?_, ?_⟩
      · intro j r' hj hjr
        cases j with
        | zero =>
          simp only [List.getElem?_cons_zero, Option.some.injEq] at hjr
          subst hjr
          exact hq
        | succ j => exact hmin j r' (Nat.lt_of_succ_lt_succ hj) (by simpa using hjr)
      · have : ¬ (r.keyword ≠ [] ∧ (find x r.keyword).isSome) :=
          fun hc => hq ⟨hc.1, (find_isSome_iff _ _).mp hc.2⟩
        simp only [respondLoop, this, if_false]
        exact hres

/-! ## Reading the file -/

theorem getline_eq_none_iff (s : Str) : getline s = none ↔ s = [] := by
  cases s <;> simp [getline]

/-- A successful `getline` returns the first line of the stream, leaves the
stream of the remaining lines, and consumes at least one character. -/
theorem getline_fileLines (s l rest : Str) (h : getline s = some (l, rest)) :
    fileLines s = l :: fileLines rest ∧ rest.length < s.length ∧ '\n' ∉ l := by
  induction s generalizing l rest with
  | nil => simp [getline] at h
  | cons c s ih =>
    simp only [getline, Option.some.injEq, Prod.mk.injEq] at h
    obtain ⟨hl, hr⟩ := h
    by_cases hc : c = '\n'
    · subst hc
      simp only [List.takeWhile_cons, List.dropWhile_cons, ne_eq, not_true_eq_false,
        decide_False, Bool.false_eq_true, if_false, List.drop_succ_cons, List.drop_zero] at hl hr
      subst hl hr
      simp [fileLines]
    · have hp : decide (c ≠ '\n') = true := by simp [hc]
      simp only [List.takeWhile_cons, List.dropWhile_cons, hp, if_true] at hl hr
      cases s with
      | nil =>
        simp only [List.takeWhile_nil, List.dropWhile_nil, List.drop_nil] at hl hr
        subst hl hr
        simp [fileLines, hc, Ne.symm hc]
      | cons d s' =>
        obtain ⟨h1, h2, h3⟩ := ih _ _ rfl
        subst hl hr
        refine ⟨?_, ?_, ?_⟩
        · rw [fileLines, if_neg hc, h1]
        · exact Nat.lt_succ_of_lt h2
        · simp only [List.mem_cons, not_or]
          exact ⟨Ne.symm hc, h3⟩

theorem fileLines_no_newline (s : Str) : ∀ l ∈ fileLines s, '\n' ∉ l := by
  induction s with
  | nil => simp [fileLines]
  | cons c s ih =>
    by_cases hc : c = '\n'
    · simp only [fileLines, hc, if_true, List.mem_cons]
      rintro l (rfl | hl)
      · simp
      · exact ih l hl
    · simp only [fileLines, hc, if_false]
      cases hf : fileLines s with
      | nil => simp [Ne.symm hc]
      | cons l0 ls =>
        rw [hf] at ih
        simp only [List.mem_cons]
        rintro l (rfl | hl)
        · simp only [List.mem_cons, not_or]
          exact ⟨Ne.symm hc, ih l0 (List.mem_cons_self _ _)⟩
        · exact ih l (List.mem_cons_of_mem _ hl)

theorem fileLines_line_append (l rest : Str) (h : '\n' ∉ l) :
    fileLines (l ++ '\n' :: rest) = l :: fileLines rest := by
  induction l with
  | nil => simp [fileLines]
  | cons c l ih =>
    simp only [List.mem_cons, not_or] at h
    have hc : c ≠ '\n' := Ne.symm h.1
    rw [List.cons_append, fileLines, if_neg hc, ih h.2]

theorem unlines_cons (l : Str) (ls : List Str) :
    unlines (l :: ls) = l ++ '\n' :: unlines ls := by
  simp [unlines]

theorem unlines_append (ls ms : List Str) : unlines (ls ++ ms) = unlines ls ++ unlines ms := by
  simp [unlines]

theorem fileLines_unlines (ls : List Str) (h : ∀ l ∈ ls, '\n' ∉ l) :
    fileLines (unlines ls) = ls := by
  induction ls with
  | nil => rfl
  | cons l ls ih =>
    rw [unlines_cons, fileLines_line_append l _ (h l (List.mem_cons_self _ _)),
      ih fun m hm => h m (List.mem_cons_of_mem _ hm)]

/-- The loop of `loadResponses` never runs out of fuel that exceeds the
length of the stream: it is the replay of the file's line sequence. -/
theorem loadLoop_eq_loadLines (fuel : Nat) (s : Str) (acc : List Response)
    (h : s.length < fuel) : loadLoop fuel s acc = loadLines (fileLines s) acc := by
  induction fuel generalizing s acc with
  | zero => exact absurd h (Nat.not_lt_zero _)
  | succ fuel ih =>
    cases h1 : getline s with
    | none =>
      rw [(getline_eq_none_iff s).mp h1]
      simp [loadLoop, getline, fileLines, loadLines]
    | some p1 =>
      obtain ⟨k, s1⟩ := p1
      obtain ⟨hk, hlen1, _⟩ := getline_fileLines s k s1 h1
      cases h2 : getline s1 with
      | none =>
        simp only [loadLoop, h1, h2]
        rw [hk, (getline_eq_none_iff s1).mp h2]
        rfl
      | some p2 =>
        obtain ⟨r, s2⟩ := p2
        obtain ⟨hr, hlen2, _⟩ := getline_fileLines s1 r s2 h2
        rw [hk, hr]
        simp only [loadLoop, h1, h2, loadLines]
        exact ih s2 _ (by omega)

theorem loadLoop_fuel (fuel : Nat) (s : Str) (acc : List Response) (h : s.length < fuel) :
    loadLoop fuel s acc = loadLoop (s.length + 1) s acc := by
  rw [loadLoop_eq_loadLines fuel s acc h, loadLoop_eq_loadLines _ s acc (Nat.lt_succ_self _)]

theorem loadBody_eq (k r : Str) (acc : List Response) :
    loadBody k r acc = acc ++ (entryOf k r).toList := by
  by_cases h : cleanKeyword k = []
  · simp [loadBody, entryOf, h]
  · simp [loadBody, entryOf, h]

theorem storeOfLines_cons_cons (k r : Str) (rest : List Str) :
    storeOfLines (k :: r :: rest) = (entryOf k r).toList ++ storeOfLines rest := by
  have hlen : (k :: r :: rest).length / 2 = rest.length / 2 + 1 := by
    simp only [List.length_cons]; omega
  have hf : ((fun i => entryOf ((k :: r :: rest).getD (2 * i) []) ((k :: r :: rest).getD (2 * i + 1) []))
      ∘ Nat.succ) = fun i => entryOf (rest.getD (2 * i) []) (rest.getD (2 * i + 1) []) := by
    funext i
    have e1 : 2 * Nat.succ i = (2 * i) + 1 + 1 := by omega
    have e2 : 2 * Nat.succ i + 1 = (2 * i + 1) + 1 + 1 := by omega
    simp only [Function.comp, e1, e2, List.getD_cons_succ]
  have h0 : entryOf ((k :: r :: rest).getD (2 * 0) []) ((k :: r :: rest).getD (2 * 0 + 1) [])
      = entryOf k r := rfl
  unfold storeOfLines
  rw [hlen, List.range_succ_eq_map, List.filterMap_cons, List.filterMap_map, hf, h0]
  cases entryOf k r <;> rfl

theorem loadLines_eq (ls : List Str) (acc : List Response) :
    loadLines ls acc = acc ++ storeOfLines ls := by
  induction ls, acc using loadLines.induct with
  | case1 k r rest acc ih =>
    rw [loadLines, ih, loadBody_eq, storeOfLines_cons_cons, List.append_assoc]
  | case2 ls acc hne =>
    have hnil : storeOfLines ls = [] := by
      match ls, hne with
      | [], _ => simp [storeOfLines]
      | [x], _ => simp [storeOfLines]
      | k :: r :: rest, hne => exact absurd rfl (hne k r rest)
    rw [hnil, List.append_nil]
    match ls, hne with
    | [], _ => rfl
    | [x], _ => rfl
    | k :: r :: rest, hne => exact absurd rfl (hne k r rest)

theorem new_responses_some (content cin cout cerr : Str) :
    (Chatbot.new (some content) cin cout cerr).responses = storeOfLines (fileLines content) := by
  simp [Chatbot.new, loadResponses, loadLoop_eq_loadLines, loadLines_eq]

theorem new_responses_none (cin cout cerr : Str) :
    (Chatbot.new none cin cout cerr).responses = [] := rfl

theorem storeOfLines_append_aux (n : Nat) (ls ms : List Str) (h : ls.length = 2 * n) :
    storeOfLines (ls ++ ms) = storeOfLines ls ++ storeOfLines ms := by
  induction n generalizing ls with
  | zero =>
    have : ls = [] := List.length_eq_zero.mp (by omega)
    subst this
    simp [storeOfLines]
  | succ n ih =>
    match ls, h with
    | k :: r :: rest, h =>
      have hr : rest.length = 2 * n := by simp only [List.length_cons] at h; omega
      rw [List.cons_append, List.cons_append, storeOfLines_cons_cons, storeOfLines_cons_cons,
        ih rest hr, List.append_assoc]
    | [x], h => simp at h; omega
    | [], h => simp at h

theorem storeOfLines_append (ls ms : List Str) (h : ls.length % 2 = 0) :
    storeOfLines (ls ++ ms) = storeOfLines ls ++ storeOfLines ms :=
  storeOfLines_append_aux (ls.length / 2) ls ms (by omega)

/-! ## The keyword candidate of a line -/

theorem trim_eq_strip_of_not_wsOnly (s : Str) (h : ¬ WsOnly s) : trim s = strip s := by
  rcases all_ws_or_exists s with hall | hex
  · have : s = [] := by
      by_contra hne
      exact h ⟨hne, hall⟩
    subst this
    rfl
  · exact trim_eq_strip s hex

theorem findChar_eq_none_iff (s : Str) (ch : Char) : findChar s ch = none ↔ ch ∉ s := by
  induction s with
  | nil => simp [findChar]
  | cons c s ih =>
    by_cases h : c = ch
    · simp [findChar, h]
    · simp [findChar, h, ih, Ne.symm h]

theorem findChar_append (pre post : Str) (ch : Char) (h : ch ∉ pre) :
    findChar (pre ++ ch :: post) ch = some pre.length := by
  induction pre with
  | nil => simp [findChar]
  | cons c pre ih =>
    simp only [List.mem_cons, not_or] at h
    simp [findChar, Ne.symm h.1, ih h.2]

theorem findChar_split (s : Str) (ch : Char) (i : Nat) (h : findChar s ch = some i) :
    ∃ pre post, s = pre ++ ch :: post ∧ ch ∉ pre ∧ pre.length = i := by
  induction s generalizing i with
  | nil => simp [findChar] at h
  | cons c s ih =>
    by_cases hc : c = ch
    · subst hc
      simp only [findChar, if_true, Option.some.injEq] at h
      exact ⟨[], s, rfl, by simp, by simpa using h⟩
    · simp only [findChar, hc, if_false, Option.map_eq_some'] at h
      obtain ⟨j, hj, rfl⟩ := h
      obtain ⟨pre, post, hs, hpre, hlen⟩ := ih j hj
      refine ⟨c :: pre, post, by rw [hs, List.cons_append], ?_, by simp [hlen]⟩
      simp only [List.mem_cons, not_or]
      exact ⟨Ne.symm hc, hpre⟩

/-- With a `]` in the line the candidate is `trim` of the text after the
first one. -/
theorem cleanKeyword_bracket (pre post : Str) (h : ']' ∉ pre) :
    cleanKeyword (pre ++ ']' :: post) = trim post := by
  simp [cleanKeyword, findChar_append pre post ']' h, substrFrom]

/-- Without a `]` the candidate is `trim` of the whole line. -/
theorem cleanKeyword_no_bracket (line : Str) (h : ']' ∉ line) :
    cleanKeyword line = trim line := by
  simp [cleanKeyword, (findChar_eq_none_iff line ']').mpr h]

/-- The candidate is `trim` of a trailing part of the line. -/
theorem cleanKeyword_eq_trim (line : Str) : ∃ t, t <:+ line ∧ cleanKeyword line = trim t := by
  cases h : findChar line ']' with
  | none =>
    exact ⟨line, List.suffix_refl _, cleanKeyword_no_bracket line ((findChar_eq_none_iff _ _).mp h)⟩
  | some i =>
    obtain ⟨pre, post, hs, hpre, _⟩ := findChar_split line ']' i h
    refine ⟨post, ?_, by rw [hs, cleanKeyword_bracket pre post hpre]⟩
    rw [hs]
    exact ⟨pre ++ [']'], by simp⟩

theorem cleanKeyword_sub (line : Str) : cleanKeyword line <:+: line := by
  obtain ⟨t, ht, hc⟩ := cleanKeyword_eq_trim line
  rw [hc]
  exact (trim_sub t).trans ht.isInfix

/-! ## The claims -/

/-- C1. Lookup inside `respond` is first-qualifying-in-insertion-order. If some
entry of the store has a non-empty keyword that occurs in the lowercased
input, then there is a smallest index `i` with that property and the turn
only writes the reply of entry `i` and a line end to `cout`: store, file and
`cin` stay as they are, so the teach flow is not entered. If no entry
qualifies (empty store, empty keywords) the turn is the teach flow. -/
theorem respond_first_qualifying (canOpen : Bool) (userInput : Str) (b : Chatbot) :
    ((∃ r ∈ b.responses, Qualifies (toLowerCase userInput) r) →
      ∃ (i : Nat) (r : Response), b.responses[i]? = some r ∧
        Qualifies (toLowerCase userInput) r ∧
        (∀ (j : Nat) (r' : Response), j < i → b.responses[j]? = some r' →
          ¬ Qualifies (toLowerCase userInput) r') ∧
        respond canOpen userInput b = { b with cout := b.cout ++ r.reply ++ ['\n'] }) ∧
    ((∀ r ∈ b.responses, ¬ Qualifies (toLowerCase userInput) r) →
      respond canOpen userInput b = teach canOpen b) := by
  constructor
  · intro h
    obtain ⟨i, r, hi, hq, hmin, hres⟩ := respondLoop_first _ _ h
    exact ⟨i, r, hi, hq, hmin, by simp [respond, hres]⟩
  · intro h
    simp [respond, (respondLoop_eq_none_iff _ _).mpr h]

/-- C1, witness: with the entries ("bye", "r1") and ("goodbye", "r2") in that
order, the input "say goodbye now" emits "r1". -/
theorem respond_first_qualifying_witness :
    respond true "say goodbye now".toList
        ⟨[⟨"bye".toList, "r1".toList⟩, ⟨"goodbye".toList, "r2".toList⟩], none, [], [], []⟩ =
      ⟨[⟨"bye".toList, "r1".toList⟩, ⟨"goodbye".toList, "r2".toList⟩], none, [], "r1\n".toList, []⟩ := by
  obtain ⟨i, r, hi, _, hmin, hres⟩ :=
    (respond_first_qualifying true "say goodbye now".toList
      ⟨[⟨"bye".toList, "r1".toList⟩, ⟨"goodbye".toList, "r2".toList⟩], none, [], [], []⟩).1
      ⟨⟨"bye".toList, "r1".toList⟩, by simp, by decide, by decide⟩
  have h0 : Qualifies (toLowerCase "say goodbye now".toList) ⟨"bye".toList, "r1".toList⟩ :=
    ⟨by decide, by decide⟩
  match i, hi, hmin with
  | 0, hi, _ =>
    simp only [List.getElem?_cons_zero, Option.some.injEq] at hi
    subst hi
    exact hres
  | i + 1, _, hmin => exact absurd h0 (hmin 0 _ (Nat.succ_pos i) rfl)

/-- C3, counterexample: the keyword line "[a] [b] pricing" loads as the keyword
"[b] pricing", the text after its first `]`, and not as "pricing", the text
after its last one. -/
theorem cleanKeyword_last_bracket_counterexample :
    cleanKeyword "[a] [b] pricing".toList = "[b] pricing".toList ∧
    (Chatbot.new (some "[a] [b] pricing\nreply\n".toList) [] [] []).responses =
      [⟨"[b] pricing".toList, "reply".toList⟩] ∧
    cleanKeyword "[a] [b] pricing".toList ≠ "pricing".toList := by
  decide

/-- C3, as amended. For a keyword line with a `]`, the keyword candidate comes
from the text after the first `]` of the line; for a line without `]`, from
the whole line. Unless that text is a non-empty run of whitespace only, the
candidate is that text trimmed of surrounding whitespace, and a non-empty
candidate is stored lowercased, with the reply as read. -/
theorem cleanKeyword_first_bracket (keywordLine reply : Str) (responses : List Response) :
    (∀ pre post : Str, keywordLine = pre ++ ']' :: post → ']' ∉ pre → ¬ WsOnly post →
      cleanKeyword keywordLine = strip post ∧
      (strip post ≠ [] → loadBody keywordLine reply responses =
        responses ++ [⟨toLowerCase (strip post), reply⟩])) ∧
    (']' ∉ keywordLine → ¬ WsOnly keywordLine →
      cleanKeyword keywordLine = strip keywordLine ∧
      (strip keywordLine ≠ [] → loadBody keywordLine reply responses =
        responses ++ [⟨toLowerCase (strip keywordLine), reply⟩])) := by
  constructor
  · intro pre post hline hpre hws
    have hc : cleanKeyword keywordLine = strip post := by
      rw [hline, cleanKeyword_bracket pre post hpre, trim_eq_strip_of_not_wsOnly post hws]
    exact ⟨hc, fun hne => by simp [loadBody, hc, hne]⟩
  · intro hno hws
    have hc : cleanKeyword keywordLine = strip keywordLine := by
      rw [cleanKeyword_no_bracket keywordLine hno, trim_eq_strip_of_not_wsOnly keywordLine hws]
    exact ⟨hc, fun hne => by simp [loadBody, hc, hne]⟩

/-- C3, witness: the line "[source1] Pricing " loads as the keyword "pricing",
and so does the line " Pricing\r" that has no `]`. -/
theorem cleanKeyword_first_bracket_witness :
    loadBody "[source1] Pricing ".toList "reply".toList [] =
      [⟨"pricing".toList, "reply".toList⟩] ∧
    loadBody " Pricing\r".toList "reply".toList [] = [⟨"pricing".toList, "reply".toList⟩] :=
  ⟨((cleanKeyword_first_bracket "[source1] Pricing ".toList "reply".toList []).1
      "[source1".toList " Pricing ".toList (by decide) (by decide)
      (fun h => absurd (h.2 'P' (by decide)) (by decide))).2 (by decide),
   ((cleanKeyword_first_bracket " Pricing\r".toList "reply".toList []).2 (by decide)
      (fun h => absurd (h.2 'P' (by decide)) (by decide))).2 (by decide)⟩

/-- C4, the code at the failing input: `trim` returns a whitespace-only string
as it is, so the pair with the keyword line "   " is loaded as an entry whose
keyword is "   "; a pair with an empty keyword line is dropped, and the pairs
after them are read as (keyword, reply). -/
theorem load_whitespace_keyword_kept :
    trim "   ".toList = "   ".toList ∧
    trim " \t\r".toList = " \t\r".toList ∧
    (Chatbot.new (some "   \nlost reply\n\ndropped\nhours\n9-5\n".toList) [] [] []).responses =
      [⟨"   ".toList, "lost reply".toList⟩, ⟨"hours".toList, "9-5".toList⟩] ∧
    (Chatbot.new (some "[tag] \t\nlost reply\n".toList) [] [] []).responses =
      [⟨" \t".toList, "lost reply".toList⟩] := by
  decide

/-- C5. Learn-then-query in the same session: when the lowercased keyword is
non-empty and occurs in the lowercased input, and no entry of the store
matches that input, then after `learn` the store is the old one followed by
the entry (lowercased keyword, reply as given), and `respond` on the input
only writes that reply and a line end to `cout`: no teach flow, no reload,
whatever the outcome of the file append. -/
theorem learn_then_respond (canOpen canOpen' : Bool) (b : Chatbot) (k r x : Str)
    (hk : toLowerCase k ≠ []) (hx : toLowerCase k <:+: toLowerCase x)
    (hmiss : ∀ e ∈ b.responses, ¬ Qualifies (toLowerCase x) e) :
    (learn canOpen k r b).responses = b.responses ++ [⟨toLowerCase k, r⟩] ∧
    respond canOpen' x (learn canOpen k r b) =
      { learn canOpen k r b with cout := (learn canOpen k r b).cout ++ r ++ ['\n'] } := by
  have hresp : (learn canOpen k r b).responses = b.responses ++ [⟨toLowerCase k, r⟩] := by
    cases canOpen <;> rfl
  refine ⟨hresp, ?_⟩
  have hex : ∃ e ∈ (learn canOpen k r b).responses, Qualifies (toLowerCase x) e :=
    ⟨⟨toLowerCase k, r⟩, by simp [hresp], hk, hx⟩
  obtain ⟨i, e, hi, hq, _, hres⟩ := respondLoop_first _ _ hex
  have he : e = ⟨toLowerCase k, r⟩ := by
    rw [hresp] at hi
    have hmem := List.getElem?_mem hi
    rcases List.mem_append.mp hmem with hm | hm
    · exact absurd hq (hmiss e hm)
    · simpa using hm
  subst he
  simp [respond, hres]

/-- C5, witness: after learn("Hi", "Hello There!") the input "HI there" emits
"Hello There!"; and after a miss on "what is foo" answered with the keyword
"foo" and the reply "bar", the input "foo" emits "bar". -/
theorem learn_then_respond_witness :
    (respond true "HI there".toList
        (learn false "Hi".toList "Hello There!".toList ⟨[], none, [], [], []⟩)).cout =
      (learn false "Hi".toList "Hello There!".toList ⟨[], none, [], [], []⟩).cout
        ++ "Hello There!\n".toList ∧
    (learn false "Hi".toList "Hello There!".toList ⟨[], none, [], [], []⟩).responses =
      [⟨"hi".toList, "Hello There!".toList⟩] ∧
    (respond true "foo".toList
        (respond true "what is foo".toList ⟨[], none, "foo\nbar\n".toList, [], []⟩)).cout =
      (respond true "what is foo".toList ⟨[], none, "foo\nbar\n".toList, [], []⟩).cout
        ++ "bar\n".toList := by
  have h1 := learn_then_respond false true ⟨[], none, [], [], []⟩ "Hi".toList
    "Hello There!".toList "HI there".toList (by decide) (by decide) (by decide)
  have h2 := learn_then_respond true true
    ⟨[], none, [], ("I don't understand. Can you teach me a response for this?\n"
      ++ "Enter a keyword or phrase: "
      ++ "Enter the response for this keyword or phrase: ").toList, []⟩
    "foo".toList "bar".toList "foo".toList (by decide) (by decide) (by decide)
  refine ⟨?_, h1.1, ?_⟩
  · rw [h1.2]; simp
  · have e : respond true "what is foo".toList ⟨[], none, "foo\nbar\n".toList, [], []⟩ =
        learn true "foo".toList "bar".toList
          ⟨[], none, [], ("I don't understand. Can you teach me a response for this?\n"
            ++ "Enter a keyword or phrase: "
            ++ "Enter the response for this keyword or phrase: ").toList, []⟩ := by
      rfl
    rw [e, h2.2]; simp

/-- C6, counterexample: after learn("", "reply") with a failing append, the
store ends with the entry ("", "reply"), yet the lookup of the just-learned
keyword "" finds nothing and `respond` runs the teach flow again. -/
theorem learn_empty_keyword_counterexample :
    (learn false [] "reply".toList ⟨[], none, [], [], []⟩).responses = [⟨[], "reply".toList⟩] ∧
    respondLoop (toLowerCase [])
      (learn false [] "reply".toList ⟨[], none, [], [], []⟩).responses = none ∧
    respond false [] (learn false [] "reply".toList ⟨[], none, [], [], []⟩) =
      teach false (learn false [] "reply".toList ⟨[], none, [], [], []⟩) :=
  ⟨by decide, by decide, rfl⟩

/-- C6, as amended. `learn` leaves the store equal to the old one followed by
the single entry (lowercased keyword, reply), whether the append succeeds or
fails; when it fails the file is unchanged and exactly one error message is
written to `cerr`; and when the keyword is non-empty, a same-session lookup
of the just-learned keyword succeeds. -/
theorem learn_append_only (canOpen : Bool) (k r : Str) (b : Chatbot) :
    (learn canOpen k r b).responses = b.responses ++ [⟨toLowerCase k, r⟩] ∧
    (canOpen = false →
      (learn canOpen k r b).file = b.file ∧
      (learn canOpen k r b).cerr =
        b.cerr ++ "Error: Unable to save response to file.".toList ++ ['\n']) ∧
    (k ≠ [] → (respondLoop (toLowerCase k) (learn canOpen k r b).responses).isSome) := by
  have hresp : (learn canOpen k r b).responses = b.responses ++ [⟨toLowerCase k, r⟩] := by
    cases canOpen <;> rfl
  refine ⟨hresp, ?_, ?_⟩
  · rintro rfl
    exact ⟨rfl, rfl⟩
  · intro hk
    rw [Option.isSome_iff_ne_none, Ne, respondLoop_eq_none_iff, hresp]
    intro hall
    exact hall ⟨toLowerCase k, r⟩ (by simp)
      ⟨fun h => hk ((toLowerCase_eq_nil_iff k).mp h), List.infix_refl _⟩

/-- C6, witness: learn("Hi", "Hello There!") with a failing append on a store
holding ("bye", "r1") and an absent file. -/
theorem learn_append_only_witness :
    (learn false "Hi".toList "Hello There!".toList
        ⟨[⟨"bye".toList, "r1".toList⟩], none, [], [], []⟩).responses =
      [⟨"bye".toList, "r1".toList⟩, ⟨"hi".toList, "Hello There!".toList⟩] ∧
    (learn false "Hi".toList "Hello There!".toList
        ⟨[⟨"bye".toList, "r1".toList⟩], none, [], [], []⟩).file = none ∧
    (learn false "Hi".toList "Hello There!".toList
        ⟨[⟨"bye".toList, "r1".toList⟩], none, [], [], []⟩).cerr =
      "Error: Unable to save response to file.\n".toList ∧
    (respondLoop (toLowerCase "Hi".toList) (learn false "Hi".toList "Hello There!".toList
        ⟨[⟨"bye".toList, "r1".toList⟩], none, [], [], []⟩).responses).isSome :=
  have h := learn_append_only false "Hi".toList "Hello There!".toList
    ⟨[⟨"bye".toList, "r1".toList⟩], none, [], [], []⟩
  ⟨h.1, (h.2.1 rfl).1, (h.2.1 rfl).2, h.2.2 (by decide)⟩

/-- C2, counterexample: starting from an absent file, learn("a]", "r") appends
the lines "a]" and "r"; the fresh load takes the text after the `]` as the
keyword candidate, finds it empty and drops the pair, so the lookup of "a]"
finds nothing. And learn("a\nb", "r") appends three lines, so that the
lookup of "a\nb" returns "b". Both keywords are non-empty and are returned
unchanged by `trim`. -/
theorem learn_reload_counterexample :
    trim "a]".toList = "a]".toList ∧
    reload (learn true "a]".toList "r".toList ⟨[], none, [], [], []⟩) = [] ∧
    respondLoop (toLowerCase "a]".toList)
      (reload (learn true "a]".toList "r".toList ⟨[], none, [], [], []⟩)) = none ∧
    trim "a\nb".toList = "a\nb".toList ∧
    respondLoop (toLowerCase "a\nb".toList)
      (reload (learn true "a\nb".toList "r".toList ⟨[], none, [], [], []⟩)) = some "b".toList := by
  decide

theorem cleanKeyword_ne_nil (k : Str) (hk : k ≠ [])
    (hbr : ∀ pre : Str, ']' ∉ pre → k ≠ pre ++ [']']) : cleanKeyword k ≠ [] := by
  cases h : findChar k ']' with
  | none =>
    rw [cleanKeyword_no_bracket k ((findChar_eq_none_iff _ _).mp h), Ne, trim_eq_nil_iff]
    exact hk
  | some i =>
    obtain ⟨pre, post, hs, hpre, _⟩ := findChar_split k ']' i h
    rw [hs, cleanKeyword_bracket pre post hpre, Ne, trim_eq_nil_iff]
    rintro rfl
    exact hbr pre hpre hs

theorem reload_eq (b : Chatbot) : reload b = storeOfLines (fileLines (b.file.getD [])) := by
  cases h : b.file with
  | none => simp [reload, h, new_responses_none, fileLines, storeOfLines]
  | some content => simp [reload, h, new_responses_some]

theorem new_responses_eq (file : Option Str) (cin cout cerr : Str) :
    (Chatbot.new file cin cout cerr).responses = storeOfLines (fileLines (file.getD [])) := by
  cases file with
  | none => simp [new_responses_none, fileLines, storeOfLines]
  | some content => simp [new_responses_some]

/-- C2, as amended. Round-trip persistence: starting from an absent or empty
file, for every non-empty single-line keyword whose first `]`, if it has one,
is not its last character, and every single-line reply, `learn` with a
successful append followed by a fresh load of the file gives a store in which
the lookup of any input whose lowercase form contains the lowercased keyword
returns the reply, and `respond` emits it. -/
theorem learn_reload_lookup (b : Chatbot) (k r x : Str) (canOpen : Bool) (cin cout cerr : Str)
    (hfile : b.file = none ∨ b.file = some [])
    (hk : k ≠ []) (hkl : '\n' ∉ k) (hrl : '\n' ∉ r)
    (hbr : ∀ pre : Str, ']' ∉ pre → k ≠ pre ++ [']'])
    (hx : toLowerCase k <:+: toLowerCase x) :
    respondLoop (toLowerCase x) (reload (learn true k r b)) = some r ∧
    respond canOpen x (Chatbot.new (learn true k r b).file cin cout cerr) =
      { Chatbot.new (learn true k r b).file cin cout cerr with
        cout := (Chatbot.new (learn true k r b).file cin cout cerr).cout ++ r ++ ['\n'] } := by
  have hf : (learn true k r b).file = some (unlines [k, r]) := by
    rcases hfile with h | h <;> simp [learn, saveResponseToFile, h, unlines]
  have hlines : fileLines (unlines [k, r]) = [k, r] :=
    fileLines_unlines _ (by simp [hkl, hrl])
  have hclean := cleanKeyword_ne_nil k hk hbr
  have hstore : storeOfLines [k, r] = [⟨toLowerCase (cleanKeyword k), r⟩] := by
    rw [storeOfLines_cons_cons]
    simp [entryOf, hclean, storeOfLines]
  have hq : Qualifies (toLowerCase x) ⟨toLowerCase (cleanKeyword k), r⟩ :=
    ⟨fun h => hclean ((toLowerCase_eq_nil_iff _).mp h),
      (toLowerCase_mono (cleanKeyword_sub k)).trans hx⟩
  have hloop : respondLoop (toLowerCase x) [⟨toLowerCase (cleanKeyword k), r⟩] = some r := by
    have : (⟨toLowerCase (cleanKeyword k), r⟩ : Response).keyword ≠ [] ∧
        (find (toLowerCase x) (⟨toLowerCase (cleanKeyword k), r⟩ : Response).keyword).isSome :=
      ⟨hq.1, (find_isSome_iff _ _).mpr hq.2⟩
    rw [respondLoop, if_pos this]
  constructor
  · rw [reload_eq, hf, Option.getD_some, hlines, hstore, hloop]
  · have hr : (Chatbot.new (learn true k r b).file cin cout cerr).responses =
        [⟨toLowerCase (cleanKeyword k), r⟩] := by
      rw [new_responses_eq, hf, Option.getD_some, hlines, hstore]
    simp only [respond, hr, hloop]

/-- C2, witness: learn("Hours", "We are open 9-5") on an absent file, a fresh
load, and the lookup of "what are your hours". -/
theorem learn_reload_lookup_witness :
    respondLoop (toLowerCase "what are your hours".toList)
      (reload (learn true "Hours".toList "We are open 9-5".toList ⟨[], none, [], [], []⟩)) =
      some "We are open 9-5".toList :=
  (learn_reload_lookup ⟨[], none, [], [], []⟩ "Hours".toList "We are open 9-5".toList
    "what are your hours".toList true [] [] [] (Or.inl rfl) (by decide) (by decide) (by decide)
    (fun pre _ h => by
      have h1 := congrArg List.getLast? h
      rw [List.getLast?_concat] at h1
      revert h1
      decide)
    (by decide)).1

/-! ## The keyword invariant -/

theorem keywordInv_lower_trim (t : Str) : KeywordInv (toLowerCase (trim t)) := by
  refine ⟨toLowerCase_idem _, fun h => ?_⟩
  obtain ⟨c, hc, hcn⟩ := toLowerCase_exists_not_ws _ h
  exact toLowerCase_noOuterWs _ (trim_noOuterWs t ⟨c, (trim_sub t).subset hc, hcn⟩)

theorem entryOf_keyword (k r : Str) (e : Response) (h : entryOf k r = some e) :
    KeywordInv e.keyword ∧ e.keyword ≠ [] ∧ e.reply = r := by
  unfold entryOf at h
  by_cases hc : cleanKeyword k = []
  · simp [hc] at h
  · simp only [ne_eq, hc, not_false_eq_true, if_true, Option.some.injEq] at h
    subst h
    obtain ⟨t, _, ht⟩ := cleanKeyword_eq_trim k
    refine ⟨?_, fun hnil => hc ((toLowerCase_eq_nil_iff _).mp hnil), rfl⟩
    show KeywordInv (toLowerCase (cleanKeyword k))
    rw [ht]
    exact keywordInv_lower_trim t

theorem storeOfLines_keyword (ls : List Str) :
    ∀ e ∈ storeOfLines ls, KeywordInv e.keyword ∧ e.keyword ≠ [] := by
  intro e he
  simp only [storeOfLines, List.mem_filterMap] at he
  obtain ⟨i, _, hi⟩ := he
  exact ⟨(entryOf_keyword _ _ e hi).1, (entryOf_keyword _ _ e hi).2.1⟩

theorem teach_responses (canOpen : Bool) (b : Chatbot) :
    ∃ kw reply : Str,
      (teach canOpen b).responses = b.responses ++ [⟨toLowerCase (trim kw), reply⟩] := by
  refine ⟨(getlineCin b.cin).1, (getlineCin (getlineCin b.cin).2).1, ?_⟩
  cases canOpen <;> rfl

theorem respond_responses (canOpen : Bool) (x : Str) (b : Chatbot) :
    (respond canOpen x b).responses = b.responses ∨
    ∃ kw reply : Str,
      (respond canOpen x b).responses = b.responses ++ [⟨toLowerCase (trim kw), reply⟩] := by
  cases h : respondLoop (toLowerCase x) b.responses with
  | some reply => exact Or.inl (by simp [respond, h])
  | none =>
    have e : respond canOpen x b = teach canOpen b := by simp [respond, h]
    rw [e]
    exact Or.inr (teach_responses canOpen b)

theorem runTurns_keywordInv (turns : List Turn) (b : Chatbot)
    (h : ∀ e ∈ b.responses, KeywordInv e.keyword) :
    ∀ e ∈ (runTurns b turns).responses, KeywordInv e.keyword := by
  induction turns generalizing b with
  | nil => exact h
  | cons t ts ih =>
    apply ih
    intro e he
    rcases respond_responses t.canOpen t.userInput { b with cin := t.typed } with hr | hr
    · rw [hr] at he
      exact h e he
    · obtain ⟨kw, reply, hr⟩ := hr
      rw [hr] at he
      rcases List.mem_append.mp he with he | he
      · exact h e he
      · simp only [List.mem_singleton] at he
        subst he
        exact keywordInv_lower_trim kw

/-- C7, counterexample: starting from an absent file, a miss answered with an
empty keyword line stores an entry whose keyword is empty; answered with the
keyword line "  ", it stores the keyword "  ", which starts and ends with
whitespace. -/
theorem keyword_invariant_counterexample :
    (runTurns (Chatbot.new none [] [] [])
      [⟨true, "hello".toList, "\nsome reply\n".toList⟩]).responses =
      [⟨[], "some reply".toList⟩] ∧
    (runTurns (Chatbot.new none [] [] [])
      [⟨true, "hello".toList, "  \nsome reply\n".toList⟩]).responses =
      [⟨"  ".toList, "some reply".toList⟩] := by
  decide

/-- C7, as amended. In every store reachable by `loadResponses` on any file
(or none) followed by any number of turns of `respond`, with any text typed
in the teach flow, every entry's keyword equals its own lowercase form and,
when it has a non-whitespace character, has no leading or trailing
whitespace; the keywords of the entries loaded from the file are non-empty. -/
theorem keyword_invariant (file : Option Str) (cin cout cerr : Str) (turns : List Turn) :
    (∀ e ∈ (runTurns (Chatbot.new file cin cout cerr) turns).responses,
      toLowerCase e.keyword = e.keyword ∧
      ((∃ c ∈ e.keyword, c ∉ trimChars) → NoOuterWs e.keyword)) ∧
    (∀ e ∈ (Chatbot.new file cin cout cerr).responses, e.keyword ≠ []) := by
  have hload := storeOfLines_keyword (fileLines (file.getD []))
  rw [← new_responses_eq file cin cout cerr] at hload
  exact ⟨runTurns_keywordInv turns _ fun e he => (hload e he).1, fun e he => (hload e he).2⟩

/-- C7, witness: a file with an annotated line, then a miss that teaches
" Foo " and a hit. -/
theorem keyword_invariant_witness :
    (runTurns (Chatbot.new (some "[tag] Hours \n9-5\n".toList) [] [] [])
      [⟨true, "what is foo".toList, " Foo \nbar\n".toList⟩, ⟨true, "FOO".toList, []⟩]).responses =
      [⟨"hours".toList, "9-5".toList⟩, ⟨"foo".toList, "bar".toList⟩] ∧
    NoOuterWs "foo".toList :=
  ⟨by decide,
   ((keyword_invariant (some "[tag] Hours \n9-5\n".toList) [] [] []
      [⟨true, "what is foo".toList, " Foo \nbar\n".toList⟩, ⟨true, "FOO".toList, []⟩]).1
      ⟨"foo".toList, "bar".toList⟩ (by decide)).2 ⟨'f', by decide, by decide⟩⟩

/-! ## Memory and file under `learn` -/

theorem new_file (file : Option Str) (cin cout cerr : Str) :
    (Chatbot.new file cin cout cerr).file = file := by
  cases file <;> rfl

theorem pairLines_length (pairs : List (Str × Str)) : (pairLines pairs).length % 2 = 0 := by
  induction pairs with
  | nil => rfl
  | cons p ps ih => simp only [pairLines, List.length_cons]; omega

theorem pairLines_no_newline (pairs : List (Str × Str))
    (h : ∀ p ∈ pairs, '\n' ∉ p.1 ∧ '\n' ∉ p.2) : ∀ l ∈ pairLines pairs, '\n' ∉ l := by
  induction pairs with
  | nil => simp [pairLines]
  | cons p ps ih =>
    intro l hl
    simp only [pairLines, List.mem_cons] at hl
    rcases hl with rfl | rfl | hl
    · exact (h p (List.mem_cons_self _ _)).1
    · exact (h p (List.mem_cons_self _ _)).2
    · exact ih (fun q hq => h q (List.mem_cons_of_mem _ hq)) l hl

theorem storeOfLines_pair (k r : Str) (hk : k ≠ []) (ht : ∃ k0, k = trim k0) (hb : ']' ∉ k) :
    storeOfLines [k, r] = [⟨toLowerCase k, r⟩] := by
  have hc : cleanKeyword k = k := by
    obtain ⟨k0, rfl⟩ := ht
    rw [cleanKeyword_no_bracket _ hb, trim_idem]
  rw [storeOfLines_cons_cons]
  simp [entryOf, hc, hk, storeOfLines]

theorem learnAll_consistent (calls : List (Str × Str)) (b : Chatbot) (ls : List Str)
    (heven : ls.length % 2 = 0) (hnl : ∀ l ∈ ls, '\n' ∉ l)
    (hfile : b.file.getD [] = unlines ls) (hresp : b.responses = storeOfLines ls)
    (hc : ∀ c ∈ calls, c.1 ≠ [] ∧ (∃ k0, c.1 = trim k0) ∧ ']' ∉ c.1 ∧ '\n' ∉ c.1 ∧ '\n' ∉ c.2) :
    reload (learnAll b calls) = (learnAll b calls).responses := by
  induction calls generalizing b ls with
  | nil => rw [learnAll, reload_eq, hfile, fileLines_unlines ls hnl, hresp]
  | cons c cs ih =>
    obtain ⟨h1, h2, h3, h4, h5⟩ := hc c (List.mem_cons_self _ _)
    refine ih (learn true c.1 c.2 b) (ls ++ [c.1, c.2]) ?_ ?_ ?_ ?_
      (fun d hd => hc d (List.mem_cons_of_mem _ hd))
    · simp only [List.length_append, List.length_cons, List.length_nil]; omega
    · intro l hl
      rcases List.mem_append.mp hl with hl | hl
      · exact hnl l hl
      · simp only [List.mem_cons, List.mem_singleton, List.not_mem_nil, or_false] at hl
        rcases hl with rfl | rfl
        · exact h4
        · exact h5
    · have : (learn true c.1 c.2 b).file =
          some (b.file.getD [] ++ c.1 ++ ['\n'] ++ c.2 ++ ['\n']) := rfl
      rw [this, Option.getD_some, hfile, unlines_append]
      simp [unlines]
    · have : (learn true c.1 c.2 b).responses = b.responses ++ [⟨toLowerCase c.1, c.2⟩] := rfl
      rw [this, hresp, storeOfLines_append ls _ heven, storeOfLines_pair c.1 c.2 h1 h2 h3]

/-- C8, counterexample: on an empty file, after learn("", "r") the store holds
("", "r") and a fresh load holds nothing; after learn("x]y", "r") the store
holds ("x]y", "r") and a fresh load holds ("y", "r"); after
learn("a\nb", "r") the store holds ("a\nb", "r") and a fresh load holds
("a", "b"). The three keywords are returned unchanged by `trim`. -/
theorem learnAll_reload_counterexample :
    (learnAll (Chatbot.new (some []) [] [] []) [([], "r".toList)]).responses =
      [⟨[], "r".toList⟩] ∧
    reload (learnAll (Chatbot.new (some []) [] [] []) [([], "r".toList)]) = [] ∧
    (learnAll (Chatbot.new (some []) [] [] []) [("x]y".toList, "r".toList)]).responses =
      [⟨"x]y".toList, "r".toList⟩] ∧
    reload (learnAll (Chatbot.new (some []) [] [] []) [("x]y".toList, "r".toList)]) =
      [⟨"y".toList, "r".toList⟩] ∧
    (learnAll (Chatbot.new (some []) [] [] []) [("a\nb".toList, "r".toList)]).responses =
      [⟨"a\nb".toList, "r".toList⟩] ∧
    reload (learnAll (Chatbot.new (some []) [] [] []) [("a\nb".toList, "r".toList)]) =
      [⟨"a".toList, "b".toList⟩] ∧
    trim [] = [] ∧ trim "x]y".toList = "x]y".toList ∧ trim "a\nb".toList = "a\nb".toList := by
  decide

/-- C8, as amended. For an absent file, or a file made of complete (keyword
line, reply line) pairs each line of which ends with a newline, and for every
sequence of `learn` calls whose appends all succeed, with caller-trimmed
keywords that are non-empty, single-line and free of `]`, and single-line
replies: the store a fresh load builds from the resulting file equals the
in-memory store after those calls. -/
theorem learnAll_reload (file : Option Str) (cin cout cerr : Str) (calls : List (Str × Str))
    (hF : file = none ∨ ∃ pairs : List (Str × Str),
      (∀ p ∈ pairs, '\n' ∉ p.1 ∧ '\n' ∉ p.2) ∧ file = some (unlines (pairLines pairs)))
    (hc : ∀ c ∈ calls, c.1 ≠ [] ∧ (∃ k0, c.1 = trim k0) ∧ ']' ∉ c.1 ∧ '\n' ∉ c.1 ∧ '\n' ∉ c.2) :
    reload (learnAll (Chatbot.new file cin cout cerr) calls) =
      (learnAll (Chatbot.new file cin cout cerr) calls).responses := by
  rcases hF with rfl | ⟨pairs, hp, rfl⟩
  · exact learnAll_consistent calls _ [] rfl (by simp) rfl rfl hc
  · refine learnAll_consistent calls _ (pairLines pairs) (pairLines_length pairs)
      (pairLines_no_newline pairs hp) ?_ ?_ hc
    · rw [new_file, Option.getD_some]
    · rw [new_responses_some, fileLines_unlines _ (pairLines_no_newline pairs hp)]

/-- C8, witness: the file "[tag] Hours\n9-5\n", then learn("Hi", "Hello There!")
and learn("bye now", "See you"). -/
theorem learnAll_reload_witness :
    reload (learnAll (Chatbot.new (some "[tag] Hours\n9-5\n".toList) [] [] [])
      [("Hi".toList, "Hello There!".toList), ("bye now".toList, "See you".toList)]) =
    (learnAll (Chatbot.new (some "[tag] Hours\n9-5\n".toList) [] [] [])
      [("Hi".toList, "Hello There!".toList), ("bye now".toList, "See you".toList)]).responses ∧
    (learnAll (Chatbot.new (some "[tag] Hours\n9-5\n".toList) [] [] [])
      [("Hi".toList, "Hello There!".toList), ("bye now".toList, "See you".toList)]).responses =
      [⟨"hours".toList, "9-5".toList⟩, ⟨"hi".toList, "Hello There!".toList⟩,
       ⟨"bye now".toList, "See you".toList⟩] :=
  ⟨learnAll_reload (some "[tag] Hours\n9-5\n".toList) [] [] []
      [("Hi".toList, "Hello There!".toList), ("bye now".toList, "See you".toList)]
      (Or.inr ⟨[("[tag] Hours".toList, "9-5".toList)], by decide, by decide⟩)
      (by
        intro c hc
        simp only [List.mem_cons, List.mem_singleton, List.not_mem_nil, or_false] at hc
        rcases hc with rfl | rfl
        · exact ⟨by decide, ⟨" Hi ".toList, by decide⟩, by decide, by decide, by decide⟩
        · exact ⟨by decide, ⟨"bye now\r".toList, by decide⟩, by decide, by decide, by decide⟩),
   by decide⟩

/-! ## Line pairing -/

theorem storeOfLines_take_even (ls : List Str) (m : Nat) (h : ls.length = 2 * m + 1) :
    storeOfLines ls = storeOfLines (ls.take (2 * m)) := by
  have hlen : (ls.take (2 * m)).length = 2 * m := by
    rw [List.length_take]; omega
  have hd : (ls.drop (2 * m)).length = 1 := by
    rw [List.length_drop]; omega
  obtain ⟨x, hx⟩ := List.length_eq_one.mp hd
  conv_lhs => rw [← List.take_append_drop (2 * m) ls, hx]
  rw [storeOfLines_append_aux m _ _ hlen]
  simp [storeOfLines]

/-- C9. Line pairing in `loadResponses`: the store loaded from a file is, in
file order, one entry for each pair of lines `(l(2i-1), l(2i))` with `2i ≤ n`
whose keyword candidate is non-empty, with the candidate lowercased as the
keyword and `l(2i)` as read as the reply; a file of `2m+1` lines loads to the
same store as the file of its first `2m` lines; an absent file and an empty
file load to the empty store. -/
theorem loadResponses_line_pairs (content cin cout cerr : Str) :
    (Chatbot.new (some content) cin cout cerr).responses =
      (List.range ((fileLines content).length / 2)).filterMap
        (fun i => entryOf ((fileLines content).getD (2 * i) [])
          ((fileLines content).getD (2 * i + 1) [])) ∧
    (∀ (k r : Str) (e : Response), entryOf k r = some e →
      cleanKeyword k ≠ [] ∧ e.keyword = toLowerCase (cleanKeyword k) ∧ e.reply = r) ∧
    (∀ (k r : Str), entryOf k r = none → cleanKeyword k = []) ∧
    (∀ m : Nat, (fileLines content).length = 2 * m + 1 →
      (Chatbot.new (some content) cin cout cerr).responses =
        (Chatbot.new (some (unlines ((fileLines content).take (2 * m)))) cin cout cerr).responses) ∧
    (Chatbot.new none cin cout cerr).responses = [] ∧
    (Chatbot.new (some []) cin cout cerr).responses = [] := by
  refine ⟨new_responses_some content cin cout cerr, ?_, ?_, ?_, rfl, rfl⟩
  · intro k r e h
    unfold entryOf at h
    by_cases hc : cleanKeyword k = []
    · simp [hc] at h
    · simp only [ne_eq, hc, not_false_eq_true, if_true, Option.some.injEq] at h
      subst h
      exact ⟨hc, rfl, rfl⟩
  · intro k r h
    unfold entryOf at h
    by_cases hc : cleanKeyword k = []
    · exact hc
    · simp [hc] at h
  · intro m hm
    have hno : ∀ l ∈ (fileLines content).take (2 * m), '\n' ∉ l :=
      fun l hl => fileLines_no_newline content l (List.mem_of_mem_take hl)
    rw [new_responses_some, new_responses_some, fileLines_unlines _ hno]
    exact storeOfLines_take_even _ m hm

/-- C9, witness: the three-line file "Hi\nHello\nbye" loads as the two-line
file "Hi\nHello\n" does: one entry, ("hi", "Hello"). -/
theorem loadResponses_line_pairs_witness :
    (Chatbot.new (some "Hi\nHello\nbye".toList) [] [] []).responses =
      (Chatbot.new (some "Hi\nHello\n".toList) [] [] []).responses ∧
    (Chatbot.new (some "Hi\nHello\n".toList) [] [] []).responses =
      [⟨"hi".toList, "Hello".toList⟩] ∧
    fileLines "Hi\nHello\nbye".toList = ["Hi".toList, "Hello".toList, "bye".toList] :=
  ⟨(loadResponses_line_pairs "Hi\nHello\nbye".toList [] [] []).2.2.2.1 1 (by decide),
   by decide, by decide⟩

/-! ## The menu -/

/-- Both indexings of `handleMenuSelection` are in bounds. -/
theorem handleMenuSelection_in_bounds (menuChoice : Int) :
    (menuChoice > 0 ∧ menuChoice ≤ (PRIMARY_MENU.length : Int) →
      (menuChoice - 1).toNat < PRIMARY_MENU.length) ∧
    (menuChoice > 100 ∧ menuChoice ≤ 100 + (SECONDARY_MENU.length : Int) →
      (menuChoice - 101).toNat < SECONDARY_MENU.length) := by
  have hp : PRIMARY_MENU.length = 6 := rfl
  have hs : SECONDARY_MENU.length = 6 := rfl
  rw [hp, hs]
  constructor <;> intro h <;> omega

/-- C10. The menu is only a macro for typed text. For `2 ≤ n ≤ 6` the choice
resolves, in bounds, to the label `PRIMARY_MENU[n-1]`, for `101 ≤ n ≤ 106` to
`SECONDARY_MENU[n-101]`; the label is not "services" and
`handleMenuSelection n` returns true and leaves exactly the state that
`respond label` leaves. For `n = 1` ("services") and for the emergency slot
`n = 7` it returns true and for every other `n` it returns false; in these
three cases the response store, the file and `cin` are unchanged. -/
theorem handleMenuSelection_as_respond (canOpen : Bool) (n : Int) (b : Chatbot) :
    (2 ≤ n ∧ n ≤ 6 → ∃ label : Str,
      (n - 1).toNat < PRIMARY_MENU.length ∧ PRIMARY_MENU[(n - 1).toNat]? = some label ∧
      label ≠ "services".toList ∧
      handleMenuSelection canOpen n b = (true, respond canOpen label b)) ∧
    (101 ≤ n ∧ n ≤ 106 → ∃ label : Str,
      (n - 101).toNat < SECONDARY_MENU.length ∧ SECONDARY_MENU[(n - 101).toNat]? = some label ∧
      label ≠ "services".toList ∧
      handleMenuSelection canOpen n b = (true, respond canOpen label b)) ∧
    (n = 1 ∨ n = 7 →
      (handleMenuSelection canOpen n b).1 = true ∧
      (handleMenuSelection canOpen n b).2.responses = b.responses ∧
      (handleMenuSelection canOpen n b).2.file = b.file ∧
      (handleMenuSelection canOpen n b).2.cin = b.cin) ∧
    (¬ (1 ≤ n ∧ n ≤ 7) ∧ ¬ (101 ≤ n ∧ n ≤ 106) →
      (handleMenuSelection canOpen n b).1 = false ∧
      (handleMenuSelection canOpen n b).2.responses = b.responses ∧
      (handleMenuSelection canOpen n b).2.file = b.file ∧
      (handleMenuSelection canOpen n b).2.cin = b.cin) := by
  refine ⟨?_, ?_, ?_, ?_⟩
  · rintro ⟨h1, h2⟩
    interval_cases n
    · exact ⟨_, by decide, rfl, by decide, rfl⟩
    · exact ⟨_, by decide, rfl, by decide, rfl⟩
    · exact ⟨_, by decide, rfl, by decide, rfl⟩
    · exact ⟨_, by decide, rfl, by decide, rfl⟩
    · exact ⟨_, by decide, rfl, by decide, rfl⟩
  · rintro ⟨h1, h2⟩
    interval_cases n
    · exact ⟨_, by decide, rfl, by decide, rfl⟩
    · exact ⟨_, by decide, rfl, by decide, rfl⟩
    · exact ⟨_, by decide, rfl, by decide, rfl⟩
    · exact ⟨_, by decide, rfl, by decide, rfl⟩
    · exact ⟨_, by decide, rfl, by decide, rfl⟩
    · exact ⟨_, by decide, rfl, by decide, rfl⟩
  · rintro (rfl | rfl)
    · exact ⟨rfl, rfl, rfl, rfl⟩
    · exact ⟨rfl, rfl, rfl, rfl⟩
  · rintro ⟨h1, h2⟩
    have hp : (PRIMARY_MENU.length : Int) = 6 := rfl
    have hs : (SECONDARY_MENU.length : Int) = 6 := rfl
    have c1 : ¬ (n > 0 ∧ n ≤ (PRIMARY_MENU.length : Int)) := by rw [hp]; omega
    have c2 : ¬ (n = (PRIMARY_MENU.length : Int) + 1) := by rw [hp]; omega
    have c3 : ¬ (n > 100 ∧ n ≤ 100 + (SECONDARY_MENU.length : Int)) := by rw [hs]; omega
    have e : handleMenuSelection canOpen n b = (false, { b with
        cout := b.cout ++ "Invalid menu choice. Please try again.".toList ++ ['\n'] }) := by
      simp only [handleMenuSelection, c1, c2, c3, if_false]
    rw [e]
    exact ⟨rfl, rfl, rfl, rfl⟩

/-- C10, witness: choice 3 is `respond "pricing"`, choice 105 is
`respond "dusting"`, choice 1 and choice 7 leave the store alone and return
true, choice 8 leaves it alone and returns false. -/
theorem handleMenuSelection_as_respond_witness :
    handleMenuSelection true 3 ⟨[⟨"pricing".toList, "ask us".toList⟩], none, [], [], []⟩ =
      (true, respond true "pricing".toList
        ⟨[⟨"pricing".toList, "ask us".toList⟩], none, [], [], []⟩) ∧
    handleMenuSelection true 105 ⟨[], none, "dusting\nweekly\n".toList, [], []⟩ =
      (true, respond true "dusting".toList ⟨[], none, "dusting\nweekly\n".toList, [], []⟩) ∧
    (handleMenuSelection true 1 ⟨[], none, [], [], []⟩).2.responses = [] ∧
    (handleMenuSelection true 7 ⟨[], none, [], [], []⟩).2.responses = [] ∧
    (handleMenuSelection true 8 ⟨[], none, [], [], []⟩).1 = false := by
  obtain ⟨l1, _, hl1, _, h1⟩ := (handleMenuSelection_as_respond true 3
    ⟨[⟨"pricing".toList, "ask us".toList⟩], none, [], [], []⟩).1 (by decide)
  obtain ⟨l2, _, hl2, _, h2⟩ := (handleMenuSelection_as_respond true 105
    ⟨[], none, "dusting\nweekly\n".toList, [], []⟩).2.1 (by decide)
  have e1 : l1 = "pricing".toList := by
    have : PRIMARY_MENU[((3 : Int) - 1).toNat]? = some "pricing".toList := by decide
    rw [this] at hl1
    exact (Option.some.inj hl1).symm
  have e2 : l2 = "dusting".toList := by
    have : SECONDARY_MENU[((105 : Int) - 101).toNat]? = some "dusting".toList := by decide
    rw [this] at hl2
    exact (Option.some.inj hl2).symm
  subst e1 e2
  exact ⟨h1, h2,
    ((handleMenuSelection_as_respond true 1 ⟨[], none, [], [], []⟩).2.2.1 (Or.inl rfl)).2.1,
    ((handleMenuSelection_as_respond true 7 ⟨[], none, [], [], []⟩).2.2.1 (Or.inr rfl)).2.1,
    ((handleMenuSelection_as_respond true 8 ⟨[], none, [], [], []⟩).2.2.2 (by decide)).1⟩

end HomeCare
